import Mathlib

/-!
Verification of the `convert-case` crate: word segmentation and case rendering.

The public surface (`Casing` for `str` and `String`, `FromCasing`) is embedded
from `src/lib.rs`.  The `case` and `words` modules referenced by `lib.rs`
(`mod case; mod words;`) are not present in the source tree, so the `Case`
enumeration, the boundary-detection rulesets, the segmentation scan and the
per-convention rendering are modelled from the specification, constrained by
the unit tests that are present in `lib.rs`.
-/

set_option maxRecDepth 8192

namespace ConvertCase

/-- Modelled from the spec: the `Case` enumeration of `case.rs` (missing from
the source tree): the closed set of naming conventions
(Lower, Upper, Title, Camel, Pascal/UpperCamel, Snake, ScreamingSnake, Kebab,
Cobol, Train, Toggle, Alternating). -/
inductive Case where
  | Lower
  | Upper
  | Title
  | Toggle
  | Camel
  | Pascal
  | UpperCamel
  | Snake
  | ScreamingSnake
  | Kebab
  | Cobol
  | Train
  | Alternating
deriving DecidableEq, Repr

/-- The space character, used as the explicit delimiter of the space-separated
conventions. -/
def spaceChar : Char := ' '

/-- Modelled from the spec: a set of enabled boundary rules of `words.rs`
(missing from the source tree): the explicit delimiter characters plus flags
for the lower-to-upper, acronym and letter/digit transition rules. -/
structure Ruleset where
  delims : List Char
  lowerUpper : Bool
  acronym : Bool
  alphaNum : Bool
deriving DecidableEq, Repr

/-- Modelled from the spec: the default maximal ruleset, all four rule kinds
enabled, with space, underscore and hyphen as explicit delimiters. -/
def defaultRuleset : Ruleset :=
  { delims := [spaceChar, '_', '-'], lowerUpper := true, acronym := true, alphaNum := true }

/-- Modelled from the spec: the ruleset of the compact-casing conventions
(camel, pascal, upper camel): no explicit delimiter, case transitions and
letter/digit transitions enabled.  The letter/digit rule is included because
the `lossless_against_lossless` test in `lib.rs` requires
`"myVariable22Name".from_case(Camel)` to split at the digit transitions. -/
def camelRuleset : Ruleset :=
  { delims := [], lowerUpper := true, acronym := true, alphaNum := true }

/-- Modelled from the spec: the ruleset of a single explicit delimiter
character with every transition rule disabled. -/
def delimRuleset (d : Char) : Ruleset :=
  { delims := [d], lowerUpper := false, acronym := false, alphaNum := false }

/-- Modelled from the spec: the convention-specific narrow ruleset used when a
source convention is declared. -/
def fromCaseRuleset : Case → Ruleset
  | Case.Lower | Case.Upper | Case.Title | Case.Toggle | Case.Alternating =>
      delimRuleset spaceChar
  | Case.Camel | Case.Pascal | Case.UpperCamel => camelRuleset
  | Case.Snake | Case.ScreamingSnake => delimRuleset '_'
  | Case.Kebab | Case.Cobol | Case.Train => delimRuleset '-'

/-- Modelled from the spec: whether an enabled transition rule declares a word
boundary between the previous character `p` and the current character `c`,
with `n` the character after `c` (the acronym rule looks one character
ahead: a boundary is placed before the last upper-case letter of a run when
a lower-case letter follows). -/
def fires (rs : Ruleset) (p c : Char) (n : Option Char) : Bool :=
  (rs.lowerUpper && p.isLower && c.isUpper)
    || (rs.acronym && p.isUpper && c.isUpper && (n.map Char.isLower).getD false)
    || (rs.alphaNum && ((p.isAlpha && c.isDigit) || (p.isDigit && c.isAlpha)))

/-- Modelled from the spec: the left-to-right segmentation scan.  `prev` is
the previously read character, `acc` the word being accumulated.  An explicit
delimiter ends the current segment and is consumed; a firing transition rule
ends the current segment and starts a new one at the current character. -/
def segmentCore (rs : Ruleset) : Option Char → List Char → List Char → List (List Char)
  | _, acc, [] => [acc]
  | prev, acc, c :: rest =>
    if rs.delims.contains c then
      acc :: segmentCore rs (some c) [] rest
    else
      match prev with
      | none => segmentCore rs (some c) (acc ++ [c]) rest
      | some p =>
        if fires rs p c rest.head? then
          acc :: segmentCore rs (some c) [c] rest
        else
          segmentCore rs (some c) (acc ++ [c]) rest

/-- Modelled from the spec: segmentation of a text into words: run the scan
and discard the zero-length segments produced by consecutive, leading or
trailing delimiters. -/
def segment (rs : Ruleset) (s : List Char) : List (List Char) :=
  (segmentCore rs none [] s).filter (fun w => !w.isEmpty)

/-- Modelled from the spec: first letter upper-case, rest lower-case. -/
def capitalize : List Char → List Char
  | [] => []
  | c :: rest => c.toUpper :: rest.map Char.toLower

/-- Modelled from the spec: first letter lower-case, rest upper-case (the
per-word pattern of the Toggle convention). -/
def toggleWord : List Char → List Char
  | [] => []
  | c :: rest => c.toLower :: rest.map Char.toUpper

/-- Number of cased (alphabetic) characters of a list: the amount by which the
alternating toggle counter advances across it. -/
def countAlpha (l : List Char) : Nat := (l.filter Char.isAlpha).length

/-- Modelled from the spec: the Alternating pattern: a single toggle counter
across the whole text that advances only on cased letters; an even count
forces lower case, an odd count upper case; all other characters are kept
verbatim and do not advance the counter. -/
def alternatingChars : Nat → List Char → List Char
  | _, [] => []
  | n, c :: rest =>
    if c.isAlpha then
      (if n % 2 = 0 then c.toLower else c.toUpper) :: alternatingChars (n + 1) rest
    else
      c :: alternatingChars n rest

/-- Modelled from the spec: the per-word casing pattern of each convention,
parameterised by the 0-based word position (only Camel distinguishes the
first word).  Alternating is handled globally, not per word. -/
def caseWord : Case → Nat → List Char → List Char
  | Case.Lower, _, w => w.map Char.toLower
  | Case.Upper, _, w => w.map Char.toUpper
  | Case.Title, _, w => capitalize w
  | Case.Toggle, _, w => toggleWord w
  | Case.Camel, i, w => if i = 0 then w.map Char.toLower else capitalize w
  | Case.Pascal, _, w => capitalize w
  | Case.UpperCamel, _, w => capitalize w
  | Case.Snake, _, w => w.map Char.toLower
  | Case.ScreamingSnake, _, w => w.map Char.toUpper
  | Case.Kebab, _, w => w.map Char.toLower
  | Case.Cobol, _, w => w.map Char.toUpper
  | Case.Train, _, w => capitalize w
  | Case.Alternating, _, w => w

/-- Apply the casing pattern of a convention to every word, threading the
word position. -/
def caseWords (c : Case) : Nat → List (List Char) → List (List Char)
  | _, [] => []
  | i, w :: ws => caseWord c i w :: caseWords c (i + 1) ws

/-- Join a list of words with a delimiter, with no leading or trailing
delimiter. -/
def joinWith (d : List Char) : List (List Char) → List Char
  | [] => []
  | [w] => w
  | w :: ws => w ++ d ++ joinWith d ws

/-- Modelled from the spec: the delimiter inserted between words by each
convention. -/
def delim : Case → List Char
  | Case.Lower | Case.Upper | Case.Title | Case.Toggle | Case.Alternating => [spaceChar]
  | Case.Camel | Case.Pascal | Case.UpperCamel => []
  | Case.Snake | Case.ScreamingSnake => ['_']
  | Case.Kebab | Case.Cobol | Case.Train => ['-']

/-- Modelled from the spec: render a word sequence in a convention: case each
word and join with the convention's delimiter; the Alternating convention
instead joins with spaces and applies its global toggle counter. -/
def intoCaseChars (ws : List (List Char)) (c : Case) : List Char :=
  match c with
  | Case.Alternating => alternatingChars 0 (joinWith [spaceChar] ws)
  | _ => joinWith (delim c) (caseWords c 0 ws)

/-- Embedding of `Words::new` from `words.rs` via the spec: default maximal
segmentation. -/
def Words.new (s : String) : List (List Char) := segment defaultRuleset s.toList

/-- Embedding of `Words::from_casing` via the spec: segmentation with the
narrow ruleset of the declared source convention. -/
def Words.fromCasing (s : String) (c : Case) : List (List Char) :=
  segment (fromCaseRuleset c) s.toList

/-- Embedding of `Words::into_case` via the spec: render the word sequence in
the target convention. -/
def Words.intoCase (ws : List (List Char)) (c : Case) : String :=
  String.mk (intoCaseChars ws c)

/-- The `FromCasing` struct of `lib.rs`: a text paired with its declared
source convention. -/
structure FromCasing where
  name : String
  case : Case
deriving DecidableEq, Repr

/-- `FromCasing::new` from `lib.rs`. -/
def FromCasing.new (name : String) (case : Case) : FromCasing := ⟨name, case⟩

/-- The `to_case` method of `impl Casing for str` from `lib.rs`. -/
def strToCase (s : String) (c : Case) : String := Words.intoCase (Words.new s) c

/-- The `from_case` method of `impl Casing for str` from `lib.rs`. -/
def strFromCase (s : String) (c : Case) : FromCasing := FromCasing.new s c

/-- The `to_case` method of `impl Casing for String` from `lib.rs`. -/
def stringToCase (s : String) (c : Case) : String := Words.intoCase (Words.new s) c

/-- The `from_case` method of `impl Casing for String` from `lib.rs`. -/
def stringFromCase (s : String) (c : Case) : FromCasing := FromCasing.new s c

/-- The `to_case` method of `impl Casing for FromCasing` from `lib.rs`. -/
def FromCasing.toCase (f : FromCasing) (c : Case) : String :=
  Words.intoCase (Words.fromCasing f.name f.case) c

/-- The `from_case` method of `impl Casing for FromCasing` from `lib.rs`:
re-binds the remembered source convention, keeping the text. -/
def FromCasing.fromCase (f : FromCasing) (c : Case) : FromCasing :=
  FromCasing.new f.name c

/-- Modelled from the spec: the ruleset that the spec's narrow-ruleset sentence
assigns to the compact-casing conventions, taken literally: only the
lower-to-upper and acronym rules, without the letter/digit rule.  Kept for
comparison with `camelRuleset`. -/
def camelRulesetClaimed : Ruleset :=
  { delims := [], lowerUpper := true, acronym := true, alphaNum := false }

/-- The canonical rendering of the words `my`, `variable`, `22`, `name` in
each convention, as in the `lossless_against_lossless` test of `lib.rs`
(extended with the `UpperCamel` alias of `Pascal`). -/
def losslessExamples : List (Case × String) := [
  (Case.Lower, "my variable 22 name"),
  (Case.Upper, "MY VARIABLE 22 NAME"),
  (Case.Title, "My Variable 22 Name"),
  (Case.Camel, "myVariable22Name"),
  (Case.Pascal, "MyVariable22Name"),
  (Case.UpperCamel, "MyVariable22Name"),
  (Case.Snake, "my_variable_22_name"),
  (Case.ScreamingSnake, "MY_VARIABLE_22_NAME"),
  (Case.Kebab, "my-variable-22-name"),
  (Case.Cobol, "MY-VARIABLE-22-NAME"),
  (Case.Toggle, "mY vARIABLE 22 nAME"),
  (Case.Train, "My-Variable-22-Name"),
  (Case.Alternating, "mY vArIaBlE 22 nAmE")]

/-- No enabled rule declares a boundary anywhere along `p :: l` (the scan of
`l` with previous character `p` meets no delimiter and no firing rule). -/
def smooth (rs : Ruleset) : Char → List Char → Bool
  | _, [] => true
  | p, c :: rest =>
    !rs.delims.contains c && !fires rs p c rest.head? && smooth rs c rest

/-- The ruleset detects no boundary at all inside the text. -/
def noBoundaryIn (rs : Ruleset) : List Char → Bool
  | [] => true
  | c :: rest => !rs.delims.contains c && smooth rs c rest

/-- An upper bound on `fires` that ignores the look-ahead character: if
`firesAny` is false then no transition rule can fire on the pair, whatever
follows. -/
def firesAny (p c : Char) : Bool :=
  (p.isLower && c.isUpper) || (p.isUpper && c.isUpper)
    || (p.isAlpha && c.isDigit) || (p.isDigit && c.isAlpha)

/-- No transition rule can fire along the scan of `l` with previous
character `p`, whatever the look-ahead. -/
def noFireChain : Char → List Char → Bool
  | _, [] => true
  | p, c :: rest => !firesAny p c && noFireChain c rest

/-- A non-empty word consisting of letters only. -/
def letterWord (w : List Char) : Bool := !w.isEmpty && w.all Char.isAlpha

/-- A non-empty word consisting of digits only. -/
def digitWord (w : List Char) : Bool := !w.isEmpty && w.all Char.isDigit

/-- A word consisting purely of letters or purely of digits. -/
def simpleWord (w : List Char) : Bool := letterWord w || digitWord w

/-- A one-letter word. -/
def oneLetter (w : List Char) : Bool := letterWord w && w.length == 1

/-- A word-boundary-unambiguous word sequence: every word is all-letters or
all-digits, no two adjacent one-letter words, and no two adjacent digit
words (either situation can be merged or re-split differently by the
narrow rulesets). -/
def wellFormedWords : List (List Char) → Bool
  | [] => true
  | [w] => simpleWord w
  | u :: v :: ws =>
    simpleWord u && !(oneLetter u && oneLetter v) && !(digitWord u && digitWord v)
      && wellFormedWords (v :: ws)

/-- A non-empty word of lower-case letters only. -/
def lowWord (w : List Char) : Bool := !w.isEmpty && w.all Char.isLower

/-- A word of an upper-case letter followed by lower-case letters only. -/
def capWord : List Char → Bool
  | [] => false
  | c :: rest => c.isUpper && rest.all Char.isLower

/-- A non-empty word of digits only (shape of a rendered digit word). -/
def digWord (w : List Char) : Bool := !w.isEmpty && w.all Char.isDigit

/-- The shapes a rendered word can take in a compact-casing convention. -/
def casedShape (w : List Char) : Bool := lowWord w || capWord w || digWord w

/-- The compact-casing ruleset is guaranteed to fire exactly at the seam
between adjacent rendered words `u` and `v` of these shapes. -/
def adjOK (u v : List Char) : Bool :=
  (capWord v && (lowWord u || digWord u
      || (capWord u && (u.length != 1 || v.length ≥ 2))))
    || (digWord v && (lowWord u || capWord u))

/-- Every word after `u` has a rendered shape and every adjacent pair has a
guaranteed seam. -/
def chainFrom (u : List Char) : List (List Char) → Bool
  | [] => true
  | v :: vs => casedShape v && adjOK u v && chainFrom v vs

/-- A whole rendered word list re-split exactly by the compact-casing
ruleset: every word shaped, every seam guaranteed. -/
def chainOKlist : List (List Char) → Bool
  | [] => true
  | v :: vs => casedShape v && chainFrom v vs

/-- Apply the alternating toggle to each word, threading the counter by the
number of cased letters of the preceding words. -/
def altWords : Nat → List (List Char) → List (List Char)
  | _, [] => []
  | n, w :: ws => alternatingChars n w :: altWords (n + countAlpha w) ws

/-! ### ASCII character facts -/

theorem uint32_le_iff_toNat_le {a b : UInt32} : a ≤ b ↔ a.toNat ≤ b.toNat := by
  simp [UInt32.le_def, BitVec.le_def, UInt32.toNat]

theorem isUpper_bounds (c : Char) (h : c.isUpper = true) : 65 ≤ c.toNat ∧ c.toNat ≤ 90 := by
  simp only [Char.isUpper, Bool.and_eq_true, decide_eq_true_eq] at h
  exact ⟨uint32_le_iff_toNat_le.mp h.1, uint32_le_iff_toNat_le.mp h.2⟩

theorem isLower_bounds (c : Char) (h : c.isLower = true) : 97 ≤ c.toNat ∧ c.toNat ≤ 122 := by
  simp only [Char.isLower, Bool.and_eq_true, decide_eq_true_eq] at h
  exact ⟨uint32_le_iff_toNat_le.mp h.1, uint32_le_iff_toNat_le.mp h.2⟩

theorem isDigit_bounds (c : Char) (h : c.isDigit = true) : 48 ≤ c.toNat ∧ c.toNat ≤ 57 := by
  simp only [Char.isDigit, Bool.and_eq_true, decide_eq_true_eq] at h
  exact ⟨uint32_le_iff_toNat_le.mp h.1, uint32_le_iff_toNat_le.mp h.2⟩

theorem isAlpha_lt128 (c : Char) (h : c.isAlpha = true) : c.toNat < 128 := by
  rcases Bool.or_eq_true_iff.mp (by simpa [Char.isAlpha] using h) with h1 | h1
  · exact Nat.lt_of_le_of_lt (isUpper_bounds c h1).2 (by omega)
  · exact Nat.lt_of_le_of_lt (isLower_bounds c h1).2 (by omega)

theorem isDigit_lt128 (c : Char) (h : c.isDigit = true) : c.toNat < 128 :=
  Nat.lt_of_le_of_lt (isDigit_bounds c h).2 (by omega)

theorem simple_lt128 (c : Char) (h : (c.isAlpha || c.isDigit) = true) : c.toNat < 128 := by
  rcases Bool.or_eq_true_iff.mp h with h1 | h1
  · exact isAlpha_lt128 c h1
  · exact isDigit_lt128 c h1

theorem ascii_all (P : Char → Prop) [DecidablePred P]
    (h : ∀ n : Fin 128, P (Char.ofNat n.1)) (c : Char) (hc : c.toNat < 128) : P c := by
  have h2 := h ⟨c.toNat, hc⟩
  simpa using h2

theorem toLower_toLower (c : Char) (hc : c.toNat < 128) : c.toLower.toLower = c.toLower :=
  ascii_all (fun x => x.toLower.toLower = x.toLower) (by decide) c hc

theorem toUpper_toUpper (c : Char) (hc : c.toNat < 128) : c.toUpper.toUpper = c.toUpper :=
  ascii_all (fun x => x.toUpper.toUpper = x.toUpper) (by decide) c hc

theorem isAlpha_toLower (c : Char) (hc : c.toNat < 128) : c.toLower.isAlpha = c.isAlpha :=
  ascii_all (fun x => x.toLower.isAlpha = x.isAlpha) (by decide) c hc

theorem isAlpha_toUpper (c : Char) (hc : c.toNat < 128) : c.toUpper.isAlpha = c.isAlpha :=
  ascii_all (fun x => x.toUpper.isAlpha = x.isAlpha) (by decide) c hc

theorem isDigit_toLower (c : Char) (hc : c.toNat < 128) : c.toLower.isDigit = c.isDigit :=
  ascii_all (fun x => x.toLower.isDigit = x.isDigit) (by decide) c hc

theorem isDigit_toUpper (c : Char) (hc : c.toNat < 128) : c.toUpper.isDigit = c.isDigit :=
  ascii_all (fun x => x.toUpper.isDigit = x.isDigit) (by decide) c hc

theorem toLower_lt128 (c : Char) (hc : c.toNat < 128) : c.toLower.toNat < 128 :=
  ascii_all (fun x => x.toLower.toNat < 128) (by decide) c hc

theorem toUpper_lt128 (c : Char) (hc : c.toNat < 128) : c.toUpper.toNat < 128 :=
  ascii_all (fun x => x.toUpper.toNat < 128) (by decide) c hc

theorem isLower_toLower (c : Char) (h : c.isAlpha = true) : c.toLower.isLower = true :=
  ascii_all (fun x => x.isAlpha = true → x.toLower.isLower = true) (by decide) c
    (isAlpha_lt128 c h) h

theorem isUpper_toUpper (c : Char) (h : c.isAlpha = true) : c.toUpper.isUpper = true :=
  ascii_all (fun x => x.isAlpha = true → x.toUpper.isUpper = true) (by decide) c
    (isAlpha_lt128 c h) h

theorem toLower_of_isDigit (c : Char) (h : c.isDigit = true) : c.toLower = c :=
  ascii_all (fun x => x.isDigit = true → x.toLower = x) (by decide) c (isDigit_lt128 c h) h

theorem toUpper_of_isDigit (c : Char) (h : c.isDigit = true) : c.toUpper = c :=
  ascii_all (fun x => x.isDigit = true → x.toUpper = x) (by decide) c (isDigit_lt128 c h) h

theorem not_isUpper_of_isLower (c : Char) (h : c.isLower = true) : c.isUpper = false := by
  cases hu : c.isUpper
  · rfl
  · have h1 := isLower_bounds c h
    have h2 := isUpper_bounds c hu
    omega

theorem not_isLower_of_isUpper (c : Char) (h : c.isUpper = true) : c.isLower = false := by
  cases hu : c.isLower
  · rfl
  · have h1 := isLower_bounds c hu
    have h2 := isUpper_bounds c h
    omega

theorem isAlpha_of_isLower (c : Char) (h : c.isLower = true) : c.isAlpha = true := by
  simp [Char.isAlpha, h]

theorem isAlpha_of_isUpper (c : Char) (h : c.isUpper = true) : c.isAlpha = true := by
  simp [Char.isAlpha, h]

theorem not_isDigit_of_isAlpha (c : Char) (h : c.isAlpha = true) : c.isDigit = false := by
  cases hd : c.isDigit
  · rfl
  · have h2 := isDigit_bounds c hd
    rcases Bool.or_eq_true_iff.mp (by simpa [Char.isAlpha] using h) with h1 | h1
    · have := isUpper_bounds c h1
      omega
    · have := isLower_bounds c h1
      omega

theorem not_isAlpha_of_isDigit (c : Char) (h : c.isDigit = true) : c.isAlpha = false := by
  cases ha : c.isAlpha
  · rfl
  · rw [not_isDigit_of_isAlpha c ha] at h
    exact absurd h (by simp)

theorem simple_ne (c d : Char) (hc : (c.isAlpha || c.isDigit) = true)
    (hd : d.toNat = 32 ∨ d.toNat = 95 ∨ d.toNat = 45) : c ≠ d := by
  intro he
  subst he
  rcases Bool.or_eq_true_iff.mp hc with h1 | h1
  · rcases Bool.or_eq_true_iff.mp (by simpa [Char.isAlpha] using h1) with h2 | h2
    · have := isUpper_bounds c h2
      omega
    · have := isLower_bounds c h2
      omega
  · have := isDigit_bounds c h1
    omega

/-! ### Segmentation scan unfolding -/

theorem segmentCore_nil (rs : Ruleset) (prev : Option Char) (acc : List Char) :
    segmentCore rs prev acc [] = [acc] := rfl

theorem segmentCore_delim (rs : Ruleset) (prev : Option Char) (acc : List Char)
    (c : Char) (rest : List Char) (h : rs.delims.contains c = true) :
    segmentCore rs prev acc (c :: rest) = acc :: segmentCore rs (some c) [] rest := by
  have h2 : c ∈ rs.delims := by simpa using h
  simp [segmentCore, h2]

theorem segmentCore_start (rs : Ruleset) (acc : List Char) (c : Char) (rest : List Char)
    (h : rs.delims.contains c = false) :
    segmentCore rs none acc (c :: rest) = segmentCore rs (some c) (acc ++ [c]) rest := by
  have h2 : ¬ c ∈ rs.delims := by simpa using h
  simp [segmentCore, h2]

theorem segmentCore_fire (rs : Ruleset) (p : Char) (acc : List Char) (c : Char)
    (rest : List Char) (hd : rs.delims.contains c = false)
    (hf : fires rs p c rest.head? = true) :
    segmentCore rs (some p) acc (c :: rest) = acc :: segmentCore rs (some c) [c] rest := by
  have h2 : ¬ c ∈ rs.delims := by simpa using hd
  simp [segmentCore, h2, hf]

theorem segmentCore_step (rs : Ruleset) (p : Char) (acc : List Char) (c : Char)
    (rest : List Char) (hd : rs.delims.contains c = false)
    (hf : fires rs p c rest.head? = false) :
    segmentCore rs (some p) acc (c :: rest) = segmentCore rs (some c) (acc ++ [c]) rest := by
  have h2 : ¬ c ∈ rs.delims := by simpa using hd
  simp [segmentCore, h2, hf]

/-! ### Claim C1: round-trip closure over the full variant set -/

/-- C1: for every pair of conventions (A, B) from the full variant set, with
each convention's unambiguous rendering of the words my/variable/22/name,
applying `from_case(A).to_case(B)` and then `from_case(B).to_case(A)` to a
text validly rendered in A reproduces it exactly, including when A = B. -/
theorem c1_round_trip_closure :
    ∀ p ∈ losslessExamples, ∀ q ∈ losslessExamples,
      (strFromCase ((strFromCase p.2 p.1).toCase q.1) q.1).toCase p.1 = p.2 := by
  decide

/-- Witness for C1: the Snake rendering survives the round trip through
Camel. -/
theorem c1_round_trip_closure_witness :
    (strFromCase ((strFromCase "my_variable_22_name" Case.Snake).toCase Case.Camel)
        Case.Camel).toCase Case.Snake = "my_variable_22_name" :=
  c1_round_trip_closure (Case.Snake, "my_variable_22_name") (by decide)
    (Case.Camel, "myVariable22Name") (by decide)

/-! ### Claim C2: the camel-source ruleset -/

/-- C2 counterexample: the claim that a camel source enables only the
lower-to-upper and acronym rules is false: `from_case(Camel)` also splits at
letter/digit transitions (forced by the `lossless_against_lossless` test of
`lib.rs`), while the literally-claimed ruleset would keep `variable22name`
in one word. -/
theorem c2_counterexample :
    (strFromCase "myVariable22Name" Case.Camel).toCase Case.Snake = "my_variable_22_name"
    ∧ Words.intoCase (segment camelRulesetClaimed (String.toList "myVariable22Name"))
        Case.Snake = "my_variable22name"
    ∧ ("my_variable_22_name" : String) ≠ "my_variable22name" := by
  refine ⟨by decide, by decide, by decide⟩

/-- C2 amended: when a source convention is declared, segmentation uses
exactly the narrow ruleset of that convention: delimiter conventions enable
only their own delimiter character, space-separated conventions only the
space, and the compact-casing conventions (camel, pascal, upper camel)
enable the lower-to-upper, acronym and letter/digit transition rules (and
no explicit delimiter). -/
theorem c2_amended_rulesets :
    fromCaseRuleset Case.Camel
      = { delims := [], lowerUpper := true, acronym := true, alphaNum := true }
    ∧ fromCaseRuleset Case.Pascal
      = { delims := [], lowerUpper := true, acronym := true, alphaNum := true }
    ∧ fromCaseRuleset Case.UpperCamel
      = { delims := [], lowerUpper := true, acronym := true, alphaNum := true }
    ∧ fromCaseRuleset Case.Snake
      = { delims := ['_'], lowerUpper := false, acronym := false, alphaNum := false }
    ∧ fromCaseRuleset Case.ScreamingSnake
      = { delims := ['_'], lowerUpper := false, acronym := false, alphaNum := false }
    ∧ fromCaseRuleset Case.Kebab
      = { delims := ['-'], lowerUpper := false, acronym := false, alphaNum := false }
    ∧ fromCaseRuleset Case.Cobol
      = { delims := ['-'], lowerUpper := false, acronym := false, alphaNum := false }
    ∧ fromCaseRuleset Case.Train
      = { delims := ['-'], lowerUpper := false, acronym := false, alphaNum := false }
    ∧ fromCaseRuleset Case.Lower
      = { delims := [spaceChar], lowerUpper := false, acronym := false, alphaNum := false }
    ∧ fromCaseRuleset Case.Upper
      = { delims := [spaceChar], lowerUpper := false, acronym := false, alphaNum := false }
    ∧ fromCaseRuleset Case.Title
      = { delims := [spaceChar], lowerUpper := false, acronym := false, alphaNum := false }
    ∧ fromCaseRuleset Case.Toggle
      = { delims := [spaceChar], lowerUpper := false, acronym := false, alphaNum := false }
    ∧ fromCaseRuleset Case.Alternating
      = { delims := [spaceChar], lowerUpper := false, acronym := false, alphaNum := false }
    ∧ (strFromCase "aBagel" Case.Camel).toCase Case.Snake = "a_bagel"
    ∧ (strFromCase "teamA" Case.Camel).toCase Case.Snake = "team_a" := by
  decide

/-! ### Claim C4: the default maximal ruleset -/

/-- C4: default segmentation enables all four boundary rule kinds
simultaneously, and each of the six spellings of super/mario/64/game
converts to Snake as `super_mario_64_game`. -/
theorem c4_default_maximal :
    defaultRuleset
      = { delims := [spaceChar, '_', '-'], lowerUpper := true, acronym := true,
          alphaNum := true }
    ∧ strToCase "SuperMario64Game" Case.Snake = "super_mario_64_game"
    ∧ strToCase "super-mario64-game" Case.Snake = "super_mario_64_game"
    ∧ strToCase "superMario64 game" Case.Snake = "super_mario_64_game"
    ∧ strToCase "Super Mario 64_game" Case.Snake = "super_mario_64_game"
    ∧ strToCase "SUPERMario 64-game" Case.Snake = "super_mario_64_game"
    ∧ strToCase "super_mario-64 game" Case.Snake = "super_mario_64_game" := by
  decide

/-! ### Claim C5: acronym boundary placement -/

/-- C5: with the compact-casing ruleset, a boundary fires between two
upper-case letters exactly when a lower-case letter follows, i.e. the
boundary is placed immediately before the last upper-case letter of an
acronym run (never inside the run when more upper case follows); hence
`XMLHttpRequest` declared Camel, Pascal or UpperCamel converts to Snake as
`xml_http_request`. -/
theorem c5_acronym_placement :
    (∀ p c n : Char, p.isUpper = true → c.isUpper = true → n.isLower = true →
      fires camelRuleset p c (some n) = true)
    ∧ (∀ p c n : Char, p.isUpper = true → c.isUpper = true → n.isUpper = true →
      fires camelRuleset p c (some n) = false)
    ∧ (strFromCase "XMLHttpRequest" Case.Camel).toCase Case.Snake = "xml_http_request"
    ∧ (strFromCase "XMLHttpRequest" Case.Pascal).toCase Case.Snake = "xml_http_request"
    ∧ (strFromCase "XMLHttpRequest" Case.UpperCamel).toCase Case.Snake
      = "xml_http_request" := by
  refine ⟨?_, ?_, by decide, by decide, by decide⟩
  · intro p c n hp hc hn
    simp [fires, camelRuleset, hp, hc, hn]
  · intro p c n hp hc hn
    simp [fires, camelRuleset, hp, hc, not_isLower_of_isUpper p hp,
      not_isLower_of_isUpper n hn, not_isDigit_of_isAlpha c (isAlpha_of_isUpper c hc),
      not_isDigit_of_isAlpha p (isAlpha_of_isUpper p hp)]

/-- Witness for C5: the acronym rule fires at the `L`/`H` pair of
`XMLHttpRequest` because `t` follows, and stays silent at `X`/`M` because
`L` follows. -/
theorem c5_acronym_placement_witness :
    fires camelRuleset 'L' 'H' (some 't') = true
    ∧ fires camelRuleset 'X' 'M' (some 'L') = false :=
  ⟨c5_acronym_placement.1 'L' 'H' 't' (by decide) (by decide) (by decide),
   c5_acronym_placement.2.1 'X' 'M' 'L' (by decide) (by decide) (by decide)⟩

/-! ### Claim C9: re-binding the deferred source -/

/-- C9: `from_case` on a deferred-source handle replaces only the remembered
source convention and performs no segmentation: the held text is unchanged,
the handle equals the one built directly with the new source, and every
subsequent conversion agrees. -/
theorem c9_rebind (s : String) (a b t : Case) :
    (strFromCase s a).fromCase b = strFromCase s b
    ∧ ((strFromCase s a).fromCase b).name = s
    ∧ ((strFromCase s a).fromCase b).toCase t = (strFromCase s b).toCase t :=
  ⟨rfl, rfl, rfl⟩

/-! ### Claim C10: the str and String implementations agree -/

/-- C10: the `Casing` implementations for `String` and for `str` agree: the
conversions are equal, the deferred handles are equal (hence all subsequent
conversions agree), and the owned-string test value converts as expected. -/
theorem c10_str_string_agree (s : String) (c t : Case) :
    stringToCase s c = strToCase s c
    ∧ stringFromCase s c = strFromCase s c
    ∧ (stringFromCase s c).toCase t = (strFromCase s c).toCase t
    ∧ stringToCase "TestVariable" Case.Snake = "test_variable" :=
  ⟨rfl, rfl, rfl, by decide⟩

/-! ### Words never contain delimiter characters, and are never empty -/

theorem segmentCore_no_delim_chars (rs : Ruleset) :
    ∀ (cs : List Char) (prev : Option Char) (acc : List Char),
      (∀ x ∈ acc, rs.delims.contains x = false) →
      ∀ w ∈ segmentCore rs prev acc cs, ∀ x ∈ w, rs.delims.contains x = false := by
  intro cs
  induction cs with
  | nil =>
    intro prev acc hacc w hw x hx
    rw [segmentCore_nil] at hw
    rw [List.mem_singleton.mp hw] at hx
    exact hacc x hx
  | cons c rest ih =>
    intro prev acc hacc w hw x hx
    cases hdel : rs.delims.contains c with
    | true =>
      rw [segmentCore_delim rs prev acc c rest hdel] at hw
      rcases List.mem_cons.mp hw with h | h
      · rw [h] at hx
        exact hacc x hx
      · exact ih (some c) [] (by simp) w h x hx
    | false =>
      cases prev with
      | none =>
        rw [segmentCore_start rs acc c rest hdel] at hw
        refine ih (some c) (acc ++ [c]) ?_ w hw x hx
        intro y hy
        rcases List.mem_append.mp hy with h | h
        · exact hacc y h
        · rw [List.mem_singleton.mp h]
          exact hdel
      | some p =>
        cases hf : fires rs p c rest.head? with
        | true =>
          rw [segmentCore_fire rs p acc c rest hdel hf] at hw
          rcases List.mem_cons.mp hw with h | h
          · rw [h] at hx
            exact hacc x hx
          · refine ih (some c) [c] ?_ w h x hx
            intro y hy
            rw [List.mem_singleton.mp hy]
            exact hdel
        | false =>
          rw [segmentCore_step rs p acc c rest hdel hf] at hw
          refine ih (some c) (acc ++ [c]) ?_ w hw x hx
          intro y hy
          rcases List.mem_append.mp hy with h | h
          · exact hacc y h
          · rw [List.mem_singleton.mp h]
            exact hdel

theorem segment_words_nonempty (rs : Ruleset) (s : List Char) (w : List Char)
    (hw : w ∈ segment rs s) : w ≠ [] := by
  have h2 := (List.mem_filter.mp hw).2
  simpa using h2

theorem segment_words_delim_free (rs : Ruleset) (s : List Char) (w : List Char)
    (x : Char) (hw : w ∈ segment rs s) (hx : x ∈ w) : rs.delims.contains x = false :=
  segmentCore_no_delim_chars rs s none [] (by simp) w (List.mem_filter.mp hw).1 x hx

/-! ### Claim C6: delimiter hygiene -/

/-- C6: leading, trailing and consecutive delimiters never produce output
words: segmentation never emits an empty word and never leaves a delimiter
character inside a word, and the spec's six concrete hygiene examples hold. -/
theorem c6_delimiter_hygiene :
    (∀ (rs : Ruleset) (s : List Char) (w : List Char), w ∈ segment rs s → w ≠ [])
    ∧ (∀ (rs : Ruleset) (s : List Char) (w : List Char) (x : Char),
        w ∈ segment rs s → x ∈ w → rs.delims.contains x = false)
    ∧ (strFromCase "_leading_underscore" Case.Snake).toCase Case.Snake
        = "leading_underscore"
    ∧ (strFromCase "tailing_underscore_" Case.Snake).toCase Case.Snake
        = "tailing_underscore"
    ∧ (strFromCase "many___underscores" Case.Snake).toCase Case.Snake = "many_underscores"
    ∧ (strFromCase "-leading-hyphen" Case.Kebab).toCase Case.Kebab = "leading-hyphen"
    ∧ (strFromCase "tailing-hyphen-" Case.Kebab).toCase Case.Kebab = "tailing-hyphen"
    ∧ (strFromCase "many---hyphens" Case.Kebab).toCase Case.Kebab = "many-hyphens" :=
  ⟨segment_words_nonempty, segment_words_delim_free,
    by decide, by decide, by decide, by decide, by decide, by decide⟩

/-- Witness for C6: the word `a` segmented out of `_a_b` with the Snake
ruleset is non-empty and holds no underscore. -/
theorem c6_delimiter_hygiene_witness :
    (['a'] : List Char) ≠ []
    ∧ (fromCaseRuleset Case.Snake).delims.contains 'a' = false :=
  ⟨c6_delimiter_hygiene.1 (fromCaseRuleset Case.Snake) (String.toList "_a_b") ['a']
      (by decide),
   c6_delimiter_hygiene.2.1 (fromCaseRuleset Case.Snake) (String.toList "_a_b") ['a'] 'a'
      (by decide) (by decide)⟩

/-! ### Claim C8: the alternating toggle counter -/

theorem countAlpha_cons (c : Char) (l : List Char) :
    countAlpha (c :: l) = (if c.isAlpha then 1 else 0) + countAlpha l := by
  cases h : c.isAlpha with
  | true => simp [countAlpha, List.filter_cons, h, Nat.add_comm]
  | false => simp [countAlpha, List.filter_cons, h]

theorem alternatingChars_append (n : Nat) (xs ys : List Char) :
    alternatingChars n (xs ++ ys)
      = alternatingChars n xs ++ alternatingChars (n + countAlpha xs) ys := by
  induction xs generalizing n with
  | nil => simp [alternatingChars, countAlpha]
  | cons c xs ih =>
    cases ha : c.isAlpha with
    | true =>
      have harith : n + 1 + countAlpha xs = n + (1 + countAlpha xs) := by omega
      simp only [List.cons_append, alternatingChars, ha, if_true, countAlpha_cons,
        List.append_eq]
      rw [ih (n + 1), harith]
    | false =>
      simp only [List.cons_append, alternatingChars, ha, countAlpha_cons, List.append_eq,
        Bool.false_eq_true, if_false]
      rw [ih n]
      simp

/-- C8: alternating rendering drives a single toggle counter across the whole
character sequence: across any split point the counter advances by exactly
the number of cased letters seen so far (so digits and delimiters neither
advance nor reset it, and word boundaries do not restart it), and the
spec's example renders as `mY vArIaBlE 22 nAmE` with the first cased letter
forced lower case. -/
theorem c8_alternating_counter :
    (∀ (n : Nat) (xs ys : List Char),
      alternatingChars n (xs ++ ys)
        = alternatingChars n xs ++ alternatingChars (n + countAlpha xs) ys)
    ∧ strToCase "my variable 22 name" Case.Alternating = "mY vArIaBlE 22 nAmE" :=
  ⟨alternatingChars_append, by decide⟩

/-! ### Claim C3: totality and the single-word fallback -/

theorem segmentCore_smooth (rs : Ruleset) :
    ∀ (cs : List Char) (p : Char) (acc : List Char), smooth rs p cs = true →
      segmentCore rs (some p) acc cs = [acc ++ cs] := by
  intro cs
  induction cs with
  | nil =>
    intro p acc h
    simp [segmentCore_nil]
  | cons c rest ih =>
    intro p acc h
    simp only [smooth, Bool.and_eq_true, Bool.not_eq_true'] at h
    obtain ⟨⟨h1, h2⟩, h3⟩ := h
    rw [segmentCore_step rs p acc c rest h1 h2, ih c (acc ++ [c]) h3]
    simp

theorem segment_noBoundary (rs : Ruleset) (s : List Char) (h1 : s ≠ [])
    (h2 : noBoundaryIn rs s = true) : segment rs s = [s] := by
  cases s with
  | nil => exact absurd rfl h1
  | cons c rest =>
    simp only [noBoundaryIn, Bool.and_eq_true, Bool.not_eq_true'] at h2
    obtain ⟨hc, hs⟩ := h2
    unfold segment
    rw [segmentCore_start rs [] c rest hc, List.nil_append,
      segmentCore_smooth rs rest c [c] hs]
    simp

/-- C3: every public operation is total: `to_case` and
`from_case(...).to_case` always return a string, and when the selected
ruleset detects no boundary in a non-empty input, the whole input is treated
as a single word. -/
theorem c3_total_single_word (s : String) (a b : Case) (h1 : s.toList ≠ [])
    (h2 : noBoundaryIn (fromCaseRuleset a) s.toList = true) :
    (strFromCase s a).toCase b = Words.intoCase [s.toList] b
    ∧ (∀ (s2 : String) (a2 b2 : Case), ∃ r : String, (strFromCase s2 a2).toCase b2 = r)
    ∧ (∀ (s2 : String) (b2 : Case), ∃ r : String, strToCase s2 b2 = r) := by
  refine ⟨?_, fun s2 a2 b2 => ⟨_, rfl⟩, fun s2 b2 => ⟨_, rfl⟩⟩
  show Words.intoCase (segment (fromCaseRuleset a) s.toList) b = Words.intoCase [s.toList] b
  rw [segment_noBoundary (fromCaseRuleset a) s.toList h1 h2]

/-- Witness for C3: `my-kebab-var` declared Snake has no boundary, so
converting it to Title keeps it one word: `My-kebab-var`. -/
theorem c3_total_single_word_witness :
    (strFromCase "my-kebab-var" Case.Snake).toCase Case.Title
      = Words.intoCase [String.toList "my-kebab-var"] Case.Title :=
  (c3_total_single_word "my-kebab-var" Case.Snake Case.Title (by decide) (by decide)).1

/-! ### Segmentation is a left inverse of joining, for delimiter rulesets -/

theorem joinWith_nil (dl : List Char) : joinWith dl [] = [] := rfl

theorem joinWith_single (dl : List Char) (w : List Char) : joinWith dl [w] = w := rfl

theorem joinWith_cons (dl : List Char) (w w2 : List Char) (ws : List (List Char)) :
    joinWith dl (w :: w2 :: ws) = w ++ dl ++ joinWith dl (w2 :: ws) := rfl

theorem filter_nonempty (ws : List (List Char)) (h : ∀ w ∈ ws, w ≠ []) :
    ws.filter (fun w => !w.isEmpty) = ws := by
  induction ws with
  | nil => rfl
  | cons w rest ih =>
    rw [List.filter_cons]
    have hw : (!w.isEmpty) = true := by simpa using h w (by simp)
    simp only [hw, if_true]
    rw [ih (fun x hx => h x (by simp [hx]))]

theorem fires_rules_off (rs : Ruleset) (h1 : rs.lowerUpper = false) (h2 : rs.acronym = false)
    (h3 : rs.alphaNum = false) (p c : Char) (n : Option Char) : fires rs p c n = false := by
  simp [fires, h1, h2, h3]

theorem segmentCore_prev_irrel (rs : Ruleset) (h1 : rs.lowerUpper = false)
    (h2 : rs.acronym = false) (h3 : rs.alphaNum = false) :
    ∀ (cs : List Char) (acc : List Char) (p q : Char),
      segmentCore rs (some p) acc cs = segmentCore rs (some q) acc cs := by
  intro cs
  induction cs with
  | nil =>
    intro acc p q
    rfl
  | cons c rest ih =>
    intro acc p q
    cases hd : rs.delims.contains c with
    | true =>
      rw [segmentCore_delim rs (some p) acc c rest hd,
        segmentCore_delim rs (some q) acc c rest hd]
    | false =>
      rw [segmentCore_step rs p acc c rest hd (fires_rules_off rs h1 h2 h3 p c _),
        segmentCore_step rs q acc c rest hd (fires_rules_off rs h1 h2 h3 q c _)]

theorem segmentCore_accum (rs : Ruleset) (h1 : rs.lowerUpper = false)
    (h2 : rs.acronym = false) (h3 : rs.alphaNum = false) :
    ∀ (w : List Char), (∀ x ∈ w, rs.delims.contains x = false) →
      ∀ (acc l : List Char) (p q : Char),
        segmentCore rs (some p) acc (w ++ l) = segmentCore rs (some q) (acc ++ w) l := by
  intro w
  induction w with
  | nil =>
    intro _ acc l p q
    simpa using segmentCore_prev_irrel rs h1 h2 h3 l acc p q
  | cons c w ih =>
    intro hw acc l p q
    have hc : rs.delims.contains c = false := hw c (by simp)
    rw [List.cons_append,
      segmentCore_step rs p acc c (w ++ l) hc (fires_rules_off rs h1 h2 h3 p c _),
      ih (fun x hx => hw x (by simp [hx])) (acc ++ [c]) l c q]
    simp

theorem segmentCore_join_chain (rs : Ruleset) (d : Char) (h1 : rs.lowerUpper = false)
    (h2 : rs.acronym = false) (h3 : rs.alphaNum = false)
    (hd : rs.delims.contains d = true) :
    ∀ (ws : List (List Char)),
      (∀ w ∈ ws, w ≠ [] ∧ ∀ x ∈ w, rs.delims.contains x = false) → ws ≠ [] →
      ∀ p : Char, segmentCore rs (some p) [] (joinWith [d] ws) = ws := by
  intro ws
  induction ws with
  | nil =>
    intro _ hne _
    exact absurd rfl hne
  | cons w rest ih =>
    intro hws _ p
    obtain ⟨hne, hfree⟩ := hws w (by simp)
    cases rest with
    | nil =>
      rw [joinWith_single]
      calc segmentCore rs (some p) [] w
          = segmentCore rs (some p) [] (w ++ []) := by rw [List.append_nil]
        _ = segmentCore rs (some p) ([] ++ w) [] :=
            segmentCore_accum rs h1 h2 h3 w hfree [] [] p p
        _ = [w] := by simp [segmentCore_nil]
    | cons w2 rest2 =>
      rw [joinWith_cons, List.append_assoc,
        segmentCore_accum rs h1 h2 h3 w hfree [] ([d] ++ joinWith [d] (w2 :: rest2)) p d,
        List.nil_append, List.cons_append, List.nil_append,
        segmentCore_delim rs (some d) w d _ hd,
        ih (fun x hx => hws x (by simp [hx])) (by simp) d]

theorem segment_join (rs : Ruleset) (d : Char) (h1 : rs.lowerUpper = false)
    (h2 : rs.acronym = false) (h3 : rs.alphaNum = false)
    (hd : rs.delims.contains d = true) (ws : List (List Char))
    (hws : ∀ w ∈ ws, w ≠ [] ∧ ∀ x ∈ w, rs.delims.contains x = false) :
    segment rs (joinWith [d] ws) = ws := by
  cases ws with
  | nil => rfl
  | cons w rest =>
    obtain ⟨hne, hfree⟩ := hws w (by simp)
    have hfilter : ∀ u ∈ (w :: rest), u ≠ [] := fun u hu => (hws u hu).1
    cases hww : w with
    | nil => exact absurd hww hne
    | cons c t =>
      subst hww
      have hc : rs.delims.contains c = false := hfree c (by simp)
      have ht : ∀ x ∈ t, rs.delims.contains x = false := fun x hx => hfree x (by simp [hx])
      unfold segment
      cases rest with
      | nil =>
        rw [joinWith_single, segmentCore_start rs [] c t hc, List.nil_append]
        calc (segmentCore rs (some c) [c] t).filter (fun u => !u.isEmpty)
            = (segmentCore rs (some c) [c] (t ++ [])).filter (fun u => !u.isEmpty) := by
              rw [List.append_nil]
          _ = (segmentCore rs (some c) ([c] ++ t) []).filter (fun u => !u.isEmpty) := by
              rw [segmentCore_accum rs h1 h2 h3 t ht [c] [] c c]
          _ = [c :: t] := by simp [segmentCore_nil]
      | cons w2 rest2 =>
        rw [joinWith_cons, List.append_assoc, List.cons_append,
          segmentCore_start rs [] c (t ++ ([d] ++ joinWith [d] (w2 :: rest2))) hc,
          List.nil_append,
          segmentCore_accum rs h1 h2 h3 t ht [c] ([d] ++ joinWith [d] (w2 :: rest2)) c d,
          List.singleton_append, List.singleton_append,
          segmentCore_delim rs (some d) (c :: t) d _ hd,
          segmentCore_join_chain rs d h1 h2 h3 hd (w2 :: rest2)
            (fun x hx => hws x (by simp [hx])) (by simp) d,
          filter_nonempty ((c :: t) :: w2 :: rest2) hfilter]

/-! ### The compact-casing ruleset on rendered word shapes -/

theorem not_isUpper_of_isDigit (c : Char) (h : c.isDigit = true) : c.isUpper = false := by
  cases hu : c.isUpper with
  | false => rfl
  | true =>
    have h2 := isAlpha_of_isUpper c hu
    rw [not_isAlpha_of_isDigit c h] at h2
    exact absurd h2 (by simp)

theorem not_isLower_of_isDigit (c : Char) (h : c.isDigit = true) : c.isLower = false := by
  cases hu : c.isLower with
  | false => rfl
  | true =>
    have h2 := isAlpha_of_isLower c hu
    rw [not_isAlpha_of_isDigit c h] at h2
    exact absurd h2 (by simp)

theorem firesAny_lower_lower (p c : Char) (hp : p.isLower = true) (hc : c.isLower = true) :
    firesAny p c = false := by
  simp [firesAny, not_isUpper_of_isLower c hc,
    not_isDigit_of_isAlpha c (isAlpha_of_isLower c hc),
    not_isDigit_of_isAlpha p (isAlpha_of_isLower p hp)]

theorem firesAny_upper_lower (p c : Char) (hp : p.isUpper = true) (hc : c.isLower = true) :
    firesAny p c = false := by
  simp [firesAny, not_isUpper_of_isLower c hc,
    not_isDigit_of_isAlpha c (isAlpha_of_isLower c hc),
    not_isDigit_of_isAlpha p (isAlpha_of_isUpper p hp)]

theorem firesAny_digit_digit (p c : Char) (hp : p.isDigit = true) (hc : c.isDigit = true) :
    firesAny p c = false := by
  simp [firesAny, not_isUpper_of_isDigit c hc, not_isAlpha_of_isDigit c hc,
    not_isAlpha_of_isDigit p hp, not_isLower_of_isDigit p hp]

theorem fires_camel_of_noFire (p c : Char) (n : Option Char) (h : firesAny p c = false) :
    fires camelRuleset p c n = false := by
  simp only [firesAny, Bool.or_eq_false_iff] at h
  obtain ⟨⟨⟨h1, h2⟩, h3⟩, h4⟩ := h
  simp [fires, camelRuleset, h1, h2, h3, h4]

theorem fires_camel_LU (p c : Char) (n : Option Char) (hp : p.isLower = true)
    (hc : c.isUpper = true) : fires camelRuleset p c n = true := by
  simp [fires, camelRuleset, hp, hc]

theorem fires_camel_DA (p c : Char) (n : Option Char) (hp : p.isDigit = true)
    (hc : c.isAlpha = true) : fires camelRuleset p c n = true := by
  simp [fires, camelRuleset, hp, hc]

theorem fires_camel_AD (p c : Char) (n : Option Char) (hp : p.isAlpha = true)
    (hc : c.isDigit = true) : fires camelRuleset p c n = true := by
  simp [fires, camelRuleset, hp, hc]

theorem fires_camel_acr (p c y : Char) (hp : p.isUpper = true) (hc : c.isUpper = true)
    (hy : y.isLower = true) : fires camelRuleset p c (some y) = true := by
  simp [fires, camelRuleset, hp, hc, hy]

theorem noFireChain_allLower : ∀ (t : List Char) (p : Char), p.isLower = true →
    t.all Char.isLower = true → noFireChain p t = true := by
  intro t
  induction t with
  | nil =>
    intro p _ _
    rfl
  | cons c t ih =>
    intro p hp h
    simp only [List.all_cons, Bool.and_eq_true] at h
    simp [noFireChain, firesAny_lower_lower p c hp h.1, ih c h.1 h.2]

theorem noFireChain_allDigit : ∀ (t : List Char) (p : Char), p.isDigit = true →
    t.all Char.isDigit = true → noFireChain p t = true := by
  intro t
  induction t with
  | nil =>
    intro p _ _
    rfl
  | cons c t ih =>
    intro p hp h
    simp only [List.all_cons, Bool.and_eq_true] at h
    simp [noFireChain, firesAny_digit_digit p c hp h.1, ih c h.1 h.2]

theorem noFireChain_of_upper_lowers (c : Char) (t : List Char) (hc : c.isUpper = true)
    (ht : t.all Char.isLower = true) : noFireChain c t = true := by
  cases t with
  | nil => rfl
  | cons x t2 =>
    simp only [List.all_cons, Bool.and_eq_true] at ht
    simp [noFireChain, firesAny_upper_lower c x hc ht.1,
      noFireChain_allLower t2 x ht.1 ht.2]

theorem getLastD_all (P : Char → Bool) : ∀ (t : List Char) (p : Char), P p = true →
    t.all P = true → P (t.getLastD p) = true := by
  intro t
  induction t with
  | nil =>
    intro p hp _
    simpa [List.getLastD_nil] using hp
  | cons c t ih =>
    intro p hp h
    simp only [List.all_cons, Bool.and_eq_true] at h
    rw [List.getLastD_cons]
    exact ih c h.1 h.2

theorem getLastD_all_ne_nil (P : Char → Bool) (r : List Char) (x : Char) (hr : r ≠ [])
    (h : r.all P = true) : P (r.getLastD x) = true := by
  cases r with
  | nil => exact absurd rfl hr
  | cons y r2 =>
    simp only [List.all_cons, Bool.and_eq_true] at h
    rw [List.getLastD_cons]
    exact getLastD_all P r2 y h.1 h.2

theorem lowWord_cons (c : Char) (t : List Char) (h : lowWord (c :: t) = true) :
    c.isLower = true ∧ t.all Char.isLower = true := by
  simpa [lowWord] using h

theorem capWord_cons (c : Char) (t : List Char) (h : capWord (c :: t) = true) :
    c.isUpper = true ∧ t.all Char.isLower = true := by
  simpa [capWord] using h

theorem digWord_cons (c : Char) (t : List Char) (h : digWord (c :: t) = true) :
    c.isDigit = true ∧ t.all Char.isDigit = true := by
  simpa [digWord] using h

theorem casedShape_ne_nil (v : List Char) (h : casedShape v = true) : v ≠ [] := by
  intro he
  rw [he] at h
  exact absurd h (by decide)

theorem lowWord_getLastD (u : List Char) (h : lowWord u = true) :
    (u.getLastD 'a').isLower = true := by
  cases u with
  | nil => exact absurd h (by decide)
  | cons c t =>
    obtain ⟨h1, h2⟩ := lowWord_cons c t h
    rw [List.getLastD_cons]
    exact getLastD_all Char.isLower t c h1 h2

theorem digWord_getLastD (u : List Char) (h : digWord u = true) :
    (u.getLastD 'a').isDigit = true := by
  cases u with
  | nil => exact absurd h (by decide)
  | cons c t =>
    obtain ⟨h1, h2⟩ := digWord_cons c t h
    rw [List.getLastD_cons]
    exact getLastD_all Char.isDigit t c h1 h2

theorem capWord_getLastD_long (u : List Char) (h : capWord u = true) (hlen : u.length ≠ 1) :
    (u.getLastD 'a').isLower = true := by
  cases u with
  | nil => exact absurd h (by decide)
  | cons c t =>
    obtain ⟨h1, h2⟩ := capWord_cons c t h
    cases t with
    | nil => exact absurd rfl hlen
    | cons y t2 =>
      rw [List.getLastD_cons]
      exact getLastD_all_ne_nil Char.isLower (y :: t2) c (by simp) h2

theorem capWord_getLastD_isAlpha (u : List Char) (h : capWord u = true) :
    (u.getLastD 'a').isAlpha = true := by
  cases u with
  | nil => exact absurd h (by decide)
  | cons c t =>
    obtain ⟨h1, h2⟩ := capWord_cons c t h
    cases t with
    | nil =>
      rw [List.getLastD_cons, List.getLastD_nil]
      exact isAlpha_of_isUpper c h1
    | cons y t2 =>
      rw [List.getLastD_cons]
      exact isAlpha_of_isLower _
        (getLastD_all_ne_nil Char.isLower (y :: t2) c (by simp) h2)

theorem capWord_singleton (u : List Char) (h : capWord u = true) (hlen : u.length = 1) :
    (u.getLastD 'a').isUpper = true := by
  cases u with
  | nil => exact absurd h (by decide)
  | cons c t =>
    cases t with
    | nil =>
      rw [List.getLastD_cons, List.getLastD_nil]
      exact (capWord_cons c [] h).1
    | cons y t2 => simp at hlen

theorem camel_no_delim (c : Char) : camelRuleset.delims.contains c = false := rfl

theorem segmentCore_camel_word :
    ∀ (t : List Char) (p : Char), noFireChain p t = true →
      ∀ (acc l : List Char),
        segmentCore camelRuleset (some p) acc (t ++ l)
          = segmentCore camelRuleset (some (t.getLastD p)) (acc ++ t) l := by
  intro t
  induction t with
  | nil =>
    intro p _ acc l
    simp [List.getLastD_nil]
  | cons c t ih =>
    intro p h acc l
    simp only [noFireChain, Bool.and_eq_true, Bool.not_eq_true'] at h
    obtain ⟨h1, h2⟩ := h
    rw [List.cons_append,
      segmentCore_step camelRuleset p acc c (t ++ l) (camel_no_delim c)
        (fires_camel_of_noFire p c _ h1),
      ih c h2 (acc ++ [c]) l, List.getLastD_cons]
    simp

theorem noFireChain_of_shape (c : Char) (t : List Char) (h : casedShape (c :: t) = true) :
    noFireChain c t = true := by
  rcases Bool.or_eq_true_iff.mp h with h2 | h2
  · rcases Bool.or_eq_true_iff.mp h2 with h3 | h3
    · obtain ⟨ha, hb⟩ := lowWord_cons c t h3
      exact noFireChain_allLower t c ha hb
    · obtain ⟨ha, hb⟩ := capWord_cons c t h3
      exact noFireChain_of_upper_lowers c t ha hb
  · obtain ⟨ha, hb⟩ := digWord_cons c t h2
    exact noFireChain_allDigit t c ha hb

theorem joinWith_nil_cons (v : List Char) (vs : List (List Char)) :
    joinWith [] (v :: vs) = v ++ joinWith [] vs := by
  cases vs with
  | nil => simp [joinWith_single, joinWith_nil]
  | cons w ws =>
    rw [joinWith_cons]
    simp

theorem chainFrom_shapes : ∀ (vs : List (List Char)) (u : List Char),
    chainFrom u vs = true → ∀ w ∈ vs, casedShape w = true := by
  intro vs
  induction vs with
  | nil =>
    intro u _ w hw
    simp at hw
  | cons v vs ih =>
    intro u h w hw
    simp only [chainFrom, Bool.and_eq_true] at h
    obtain ⟨⟨hv, _⟩, hchain⟩ := h
    rcases List.mem_cons.mp hw with h2 | h2
    · rw [h2]
      exact hv
    · exact ih v hchain w h2

theorem segmentCore_camel_chain :
    ∀ (vs : List (List Char)) (u : List Char), casedShape u = true →
      chainFrom u vs = true →
      segmentCore camelRuleset (some (u.getLastD 'a')) u (joinWith [] vs) = u :: vs := by
  intro vs
  induction vs with
  | nil =>
    intro u _ _
    rfl
  | cons v vs ih =>
    intro u hu hc
    simp only [chainFrom, Bool.and_eq_true] at hc
    obtain ⟨⟨hv, hadj⟩, hchain⟩ := hc
    cases hvv : v with
    | nil => exact absurd hvv (casedShape_ne_nil v hv)
    | cons c t =>
      subst hvv
      have hfire : fires camelRuleset (u.getLastD 'a') c
          ((t ++ joinWith [] vs).head?) = true := by
        rcases Bool.or_eq_true_iff.mp hadj with h | h
        · simp only [Bool.and_eq_true] at h
          obtain ⟨hcap, hA⟩ := h
          have hcup : c.isUpper = true := (capWord_cons c t hcap).1
          rcases Bool.or_eq_true_iff.mp hA with h2 | h2
          · rcases Bool.or_eq_true_iff.mp h2 with h3 | h3
            · exact fires_camel_LU _ c _ (lowWord_getLastD u h3) hcup
            · exact fires_camel_DA _ c _ (digWord_getLastD u h3)
                (isAlpha_of_isUpper c hcup)
          · simp only [Bool.and_eq_true] at h2
            obtain ⟨hucap, hor⟩ := h2
            rcases Bool.or_eq_true_iff.mp hor with h4 | h4
            · have hne1 : u.length ≠ 1 := by simpa using h4
              exact fires_camel_LU _ c _ (capWord_getLastD_long u hucap hne1) hcup
            · have hlen : 2 ≤ (c :: t).length := of_decide_eq_true h4
              cases t with
              | nil => simp at hlen
              | cons y t2 =>
                have hy : y.isLower = true := by
                  have := (capWord_cons c (y :: t2) hcap).2
                  simp only [List.all_cons, Bool.and_eq_true] at this
                  exact this.1
                cases hul : u.length == 1 with
                | false =>
                  have hne1 : u.length ≠ 1 := by simpa using hul
                  exact fires_camel_LU _ c _
                    (capWord_getLastD_long u hucap hne1) hcup
                | true =>
                  have heq1 : u.length = 1 := by simpa using hul
                  have hup : (u.getLastD 'a').isUpper = true :=
                    capWord_singleton u hucap heq1
                  have hhead : ((y :: t2) ++ joinWith [] vs).head? = some y := rfl
                  rw [hhead]
                  exact fires_camel_acr _ c y hup hcup hy
        · simp only [Bool.and_eq_true] at h
          obtain ⟨hdig, hB⟩ := h
          have hcd : c.isDigit = true := (digWord_cons c t hdig).1
          rcases Bool.or_eq_true_iff.mp hB with h2 | h2
          · exact fires_camel_AD _ c _
              (isAlpha_of_isLower _ (lowWord_getLastD u h2)) hcd
          · exact fires_camel_AD _ c _ (capWord_getLastD_isAlpha u h2) hcd
      rw [joinWith_nil_cons, List.cons_append,
        segmentCore_fire camelRuleset (u.getLastD 'a') u c (t ++ joinWith [] vs)
          (camel_no_delim c) hfire,
        segmentCore_camel_word t c (noFireChain_of_shape c t hv) [c] (joinWith [] vs)]
      have hlast : (t.getLastD c) = ((c :: t).getLastD 'a') := (List.getLastD_cons _ _ _).symm
      rw [List.singleton_append, hlast, ih (c :: t) hv hchain]

theorem segment_camel_chain (vs : List (List Char)) (h : chainOKlist vs = true) :
    segment camelRuleset (joinWith [] vs) = vs := by
  cases vs with
  | nil => rfl
  | cons v vs2 =>
    simp only [chainOKlist, Bool.and_eq_true] at h
    obtain ⟨hv, hchain⟩ := h
    cases hvv : v with
    | nil => exact absurd hvv (casedShape_ne_nil v hv)
    | cons c t =>
      subst hvv
      have hne : ∀ w ∈ ((c :: t) :: vs2), w ≠ [] := by
        intro w hw
        rcases List.mem_cons.mp hw with h2 | h2
        · rw [h2]
          simp
        · exact casedShape_ne_nil w (chainFrom_shapes _ _ hchain w h2)
      unfold segment
      rw [joinWith_nil_cons, List.cons_append,
        segmentCore_start camelRuleset [] c (t ++ joinWith [] vs2) (camel_no_delim c),
        List.nil_append,
        segmentCore_camel_word t c (noFireChain_of_shape c t hv) [c] (joinWith [] vs2),
        List.singleton_append]
      have hlast : (t.getLastD c) = ((c :: t).getLastD 'a') := (List.getLastD_cons _ _ _).symm
      rw [hlast, segmentCore_camel_chain vs2 (c :: t) hv hchain,
        filter_nonempty _ hne]

/-! ### Well-formed word lists and the casing transforms -/

theorem simpleWord_ne_nil (w : List Char) (h : simpleWord w = true) : w ≠ [] := by
  intro he
  rw [he] at h
  exact absurd h (by decide)

theorem simpleWord_chars (w : List Char) (h : simpleWord w = true) :
    ∀ x ∈ w, (x.isAlpha || x.isDigit) = true := by
  intro x hx
  rcases Bool.or_eq_true_iff.mp h with h2 | h2
  · simp only [letterWord, Bool.and_eq_true] at h2
    have := List.all_eq_true.mp h2.2 x hx
    simp [this]
  · simp only [digitWord, Bool.and_eq_true] at h2
    have := List.all_eq_true.mp h2.2 x hx
    simp [this]

theorem wellFormedWords_simple : ∀ (ws : List (List Char)), wellFormedWords ws = true →
    ∀ w ∈ ws, simpleWord w = true := by
  intro ws
  induction ws with
  | nil =>
    intro _ w hw
    simp at hw
  | cons u rest ih =>
    intro h w hw
    cases rest with
    | nil =>
      rcases List.mem_cons.mp hw with h2 | h2
      · rw [h2]
        simpa [wellFormedWords] using h
      · simp at h2
    | cons v rest2 =>
      simp only [wellFormedWords, Bool.and_eq_true] at h
      obtain ⟨⟨⟨h1, _⟩, _⟩, h4⟩ := h
      rcases List.mem_cons.mp hw with h2 | h2
      · rw [h2]
        exact h1
      · exact ih h4 w h2

theorem wellFormedWords_tail (u : List Char) (rest : List (List Char))
    (h : wellFormedWords (u :: rest) = true) : wellFormedWords rest = true := by
  cases rest with
  | nil => rfl
  | cons v rest2 =>
    simp only [wellFormedWords, Bool.and_eq_true] at h
    simp [wellFormedWords, h.2]

theorem contains_singleton_false (x d : Char) (h : x ≠ d) :
    ([d] : List Char).contains x = false := by
  simpa using h

theorem map_toLower_chars (w : List Char) (h : ∀ x ∈ w, (x.isAlpha || x.isDigit) = true) :
    ∀ x ∈ w.map Char.toLower, (x.isAlpha || x.isDigit) = true := by
  intro x hx
  obtain ⟨y, hy, he⟩ := List.mem_map.mp hx
  have h128 := simple_lt128 y (h y hy)
  rw [← he, isAlpha_toLower y h128, isDigit_toLower y h128]
  exact h y hy

theorem map_toUpper_chars (w : List Char) (h : ∀ x ∈ w, (x.isAlpha || x.isDigit) = true) :
    ∀ x ∈ w.map Char.toUpper, (x.isAlpha || x.isDigit) = true := by
  intro x hx
  obtain ⟨y, hy, he⟩ := List.mem_map.mp hx
  have h128 := simple_lt128 y (h y hy)
  rw [← he, isAlpha_toUpper y h128, isDigit_toUpper y h128]
  exact h y hy

theorem capitalize_chars (w : List Char) (h : ∀ x ∈ w, (x.isAlpha || x.isDigit) = true) :
    ∀ x ∈ capitalize w, (x.isAlpha || x.isDigit) = true := by
  cases w with
  | nil =>
    intro x hx
    simp [capitalize] at hx
  | cons c t =>
    intro x hx
    have h128 := simple_lt128 c (h c (by simp))
    rcases List.mem_cons.mp hx with h2 | h2
    · rw [h2, isAlpha_toUpper c h128, isDigit_toUpper c h128]
      exact h c (by simp)
    · exact map_toLower_chars t (fun y hy => h y (by simp [hy])) x h2

theorem toggleWord_chars (w : List Char) (h : ∀ x ∈ w, (x.isAlpha || x.isDigit) = true) :
    ∀ x ∈ toggleWord w, (x.isAlpha || x.isDigit) = true := by
  cases w with
  | nil =>
    intro x hx
    simp [toggleWord] at hx
  | cons c t =>
    intro x hx
    have h128 := simple_lt128 c (h c (by simp))
    rcases List.mem_cons.mp hx with h2 | h2
    · rw [h2, isAlpha_toLower c h128, isDigit_toLower c h128]
      exact h c (by simp)
    · exact map_toUpper_chars t (fun y hy => h y (by simp [hy])) x h2

theorem map_toLower_idem (w : List Char) (h : ∀ x ∈ w, (x.isAlpha || x.isDigit) = true) :
    (w.map Char.toLower).map Char.toLower = w.map Char.toLower := by
  rw [List.map_map]
  apply List.map_congr_left
  intro x hx
  exact toLower_toLower x (simple_lt128 x (h x hx))

theorem map_toUpper_idem (w : List Char) (h : ∀ x ∈ w, (x.isAlpha || x.isDigit) = true) :
    (w.map Char.toUpper).map Char.toUpper = w.map Char.toUpper := by
  rw [List.map_map]
  apply List.map_congr_left
  intro x hx
  exact toUpper_toUpper x (simple_lt128 x (h x hx))

theorem capitalize_idem (w : List Char) (h : ∀ x ∈ w, (x.isAlpha || x.isDigit) = true) :
    capitalize (capitalize w) = capitalize w := by
  cases w with
  | nil => rfl
  | cons c t =>
    show capitalize (c.toUpper :: t.map Char.toLower) = _
    simp only [capitalize]
    rw [toUpper_toUpper c (simple_lt128 c (h c (by simp))),
      map_toLower_idem t (fun y hy => h y (by simp [hy]))]

theorem toggleWord_idem (w : List Char) (h : ∀ x ∈ w, (x.isAlpha || x.isDigit) = true) :
    toggleWord (toggleWord w) = toggleWord w := by
  cases w with
  | nil => rfl
  | cons c t =>
    show toggleWord (c.toLower :: t.map Char.toUpper) = _
    simp only [toggleWord]
    rw [toLower_toLower c (simple_lt128 c (h c (by simp))),
      map_toUpper_idem t (fun y hy => h y (by simp [hy]))]

theorem map_ne_nil_of_ne_nil (f : Char → Char) (w : List Char) (h : w ≠ []) :
    w.map f ≠ [] := by
  cases w with
  | nil => exact absurd rfl h
  | cons c t => simp

theorem capitalize_ne_nil (w : List Char) (h : w ≠ []) : capitalize w ≠ [] := by
  cases w with
  | nil => exact absurd rfl h
  | cons c t => simp [capitalize]

theorem toggleWord_ne_nil (w : List Char) (h : w ≠ []) : toggleWord w ≠ [] := by
  cases w with
  | nil => exact absurd rfl h
  | cons c t => simp [toggleWord]

theorem caseWords_eq_map (C : Case) (f : List Char → List Char)
    (hf : ∀ (i : Nat) (w : List Char), caseWord C i w = f w) :
    ∀ (ws : List (List Char)) (n : Nat), caseWords C n ws = ws.map f := by
  intro ws
  induction ws with
  | nil =>
    intro n
    rfl
  | cons w ws ih =>
    intro n
    simp [caseWords, hf n w, ih (n + 1)]

theorem caseWords_camel_succ : ∀ (ws : List (List Char)) (n : Nat),
    caseWords Case.Camel (n + 1) ws = ws.map capitalize := by
  intro ws
  induction ws with
  | nil =>
    intro n
    rfl
  | cons w ws ih =>
    intro n
    show caseWord Case.Camel (n + 1) w :: caseWords Case.Camel (n + 2) ws = _
    rw [show caseWord Case.Camel (n + 1) w = capitalize w by simp [caseWord], ih (n + 1)]
    rfl

/-! ### Joining then segmenting simple words, delimiter conventions -/

theorem segment_join_simple (d : Char)
    (hd : d.toNat = 32 ∨ d.toNat = 95 ∨ d.toNat = 45) (ws2 : List (List Char))
    (hws2 : ∀ w ∈ ws2, w ≠ [] ∧ ∀ x ∈ w, (x.isAlpha || x.isDigit) = true) :
    segment (delimRuleset d) (joinWith [d] ws2) = ws2 := by
  apply segment_join (delimRuleset d) d rfl rfl rfl (by simp [delimRuleset]) ws2
  intro w hw
  obtain ⟨h1, h2⟩ := hws2 w hw
  refine ⟨h1, fun x hx => ?_⟩
  show ([d] : List Char).contains x = false
  exact contains_singleton_false x d (simple_ne x d (h2 x hx) hd)

theorem mapped_words_good (f : List Char → List Char)
    (hne : ∀ w, w ≠ [] → f w ≠ [])
    (hchars : ∀ w, (∀ x ∈ w, (x.isAlpha || x.isDigit) = true) →
      ∀ x ∈ f w, (x.isAlpha || x.isDigit) = true)
    (ws : List (List Char)) (hws : ∀ w ∈ ws, simpleWord w = true) :
    ∀ u ∈ ws.map f, u ≠ [] ∧ ∀ x ∈ u, (x.isAlpha || x.isDigit) = true := by
  intro u hu
  obtain ⟨w, hw, he⟩ := List.mem_map.mp hu
  rw [← he]
  exact ⟨hne w (simpleWord_ne_nil w (hws w hw)),
    hchars w (simpleWord_chars w (hws w hw))⟩

theorem map_f_idem (f : List Char → List Char)
    (hidem : ∀ w, (∀ x ∈ w, (x.isAlpha || x.isDigit) = true) → f (f w) = f w)
    (ws : List (List Char)) (hws : ∀ w ∈ ws, simpleWord w = true) :
    (ws.map f).map f = ws.map f := by
  rw [List.map_map]
  apply List.map_congr_left
  intro w hw
  exact hidem w (simpleWord_chars w (hws w hw))

theorem roundtrip_mapcore (f : List Char → List Char) (d : Char)
    (hd : d.toNat = 32 ∨ d.toNat = 95 ∨ d.toNat = 45)
    (hne : ∀ w, w ≠ [] → f w ≠ [])
    (hchars : ∀ w, (∀ x ∈ w, (x.isAlpha || x.isDigit) = true) →
      ∀ x ∈ f w, (x.isAlpha || x.isDigit) = true)
    (hidem : ∀ w, (∀ x ∈ w, (x.isAlpha || x.isDigit) = true) → f (f w) = f w)
    (ws : List (List Char)) (hws : ∀ w ∈ ws, simpleWord w = true) :
    segment (delimRuleset d) (joinWith [d] (ws.map f)) = ws.map f
    ∧ (ws.map f).map f = ws.map f :=
  ⟨segment_join_simple d hd (ws.map f) (mapped_words_good f hne hchars ws hws),
   map_f_idem f hidem ws hws⟩

/-! ### Rendered shapes of simple words -/

theorem letterWord_cons (c : Char) (t : List Char) (h : letterWord (c :: t) = true) :
    c.isAlpha = true ∧ t.all Char.isAlpha = true := by
  simpa [letterWord] using h

theorem capitalize_letterWord (w : List Char) (h : letterWord w = true) :
    capWord (capitalize w) = true := by
  cases w with
  | nil => exact absurd h (by decide)
  | cons c t =>
    obtain ⟨h1, h2⟩ := letterWord_cons c t h
    show capWord (c.toUpper :: t.map Char.toLower) = true
    simp only [capWord, Bool.and_eq_true]
    refine ⟨isUpper_toUpper c h1, List.all_eq_true.mpr ?_⟩
    intro x hx
    obtain ⟨y, hy, he⟩ := List.mem_map.mp hx
    rw [← he]
    exact isLower_toLower y (List.all_eq_true.mp h2 y hy)

theorem capitalize_digitWord (w : List Char) (h : digitWord w = true) :
    digWord (capitalize w) = true := by
  cases w with
  | nil => exact absurd h (by decide)
  | cons c t =>
    obtain ⟨h1, h2⟩ := digWord_cons c t h
    show digWord (c.toUpper :: t.map Char.toLower) = true
    simp only [digWord, Bool.and_eq_true, List.isEmpty_cons, Bool.not_false, List.all_cons]
    refine ⟨by simp, ?_, List.all_eq_true.mpr ?_⟩
    · rw [toUpper_of_isDigit c h1]
      exact h1
    · intro x hx
      obtain ⟨y, hy, he⟩ := List.mem_map.mp hx
      have hyd := List.all_eq_true.mp h2 y hy
      rw [← he, toLower_of_isDigit y hyd]
      exact hyd

theorem mapToLower_letterWord (w : List Char) (h : letterWord w = true) :
    lowWord (w.map Char.toLower) = true := by
  cases w with
  | nil => exact absurd h (by decide)
  | cons c t =>
    obtain ⟨h1, h2⟩ := letterWord_cons c t h
    simp only [List.map_cons, lowWord, Bool.and_eq_true, List.isEmpty_cons, Bool.not_false,
      List.all_cons]
    refine ⟨by simp, isLower_toLower c h1, List.all_eq_true.mpr ?_⟩
    intro x hx
    obtain ⟨y, hy, he⟩ := List.mem_map.mp hx
    rw [← he]
    exact isLower_toLower y (List.all_eq_true.mp h2 y hy)

theorem mapToLower_digitWord (w : List Char) (h : digitWord w = true) :
    digWord (w.map Char.toLower) = true := by
  cases w with
  | nil => exact absurd h (by decide)
  | cons c t =>
    obtain ⟨h1, h2⟩ := digWord_cons c t h
    simp only [List.map_cons, digWord, Bool.and_eq_true, List.isEmpty_cons, Bool.not_false,
      List.all_cons]
    refine ⟨by simp, ?_, List.all_eq_true.mpr ?_⟩
    · rw [toLower_of_isDigit c h1]
      exact h1
    · intro x hx
      obtain ⟨y, hy, he⟩ := List.mem_map.mp hx
      have hyd := List.all_eq_true.mp h2 y hy
      rw [← he, toLower_of_isDigit y hyd]
      exact hyd

theorem capitalize_length (w : List Char) : (capitalize w).length = w.length := by
  cases w <;> simp [capitalize]

theorem mapToLower_length (w : List Char) : (w.map Char.toLower).length = w.length := by
  simp

theorem letterWord_or_digitWord (w : List Char) (h : simpleWord w = true) :
    letterWord w = true ∨ digitWord w = true := Bool.or_eq_true_iff.mp h

theorem not_digitWord_of_letterWord (w : List Char) (h : letterWord w = true) :
    digitWord w = false := by
  cases w with
  | nil => exact absurd h (by decide)
  | cons c t =>
    obtain ⟨h1, _⟩ := letterWord_cons c t h
    simp only [digWord, digitWord, Bool.and_eq_true, List.isEmpty_cons, List.all_cons]
    simp [not_isDigit_of_isAlpha c h1]

theorem casedShape_of_capitalize (w : List Char) (h : simpleWord w = true) :
    casedShape (capitalize w) = true := by
  rcases letterWord_or_digitWord w h with h2 | h2
  · simp [casedShape, capitalize_letterWord w h2]
  · simp [casedShape, capitalize_digitWord w h2]

theorem casedShape_of_mapToLower (w : List Char) (h : simpleWord w = true) :
    casedShape (w.map Char.toLower) = true := by
  rcases letterWord_or_digitWord w h with h2 | h2
  · simp [casedShape, mapToLower_letterWord w h2]
  · simp [casedShape, mapToLower_digitWord w h2]

/-! ### Rendered word lists re-split exactly under the compact-casing ruleset -/

theorem wellFormedWords_head (u v : List Char) (rest2 : List (List Char))
    (h : wellFormedWords (u :: v :: rest2) = true) :
    simpleWord u = true ∧ (oneLetter u && oneLetter v) = false
    ∧ (digitWord u && digitWord v) = false ∧ wellFormedWords (v :: rest2) = true := by
  simp only [wellFormedWords, Bool.and_eq_true, Bool.not_eq_true'] at h
  obtain ⟨⟨⟨h1, h2⟩, h3⟩, h4⟩ := h
  exact ⟨h1, h2, h3, h4⟩

theorem adjOK_rendered (u u' v : List Char)
    (hu : simpleWord u = true) (hv : simpleWord v = true)
    (hlen : u'.length = u.length)
    (hA : letterWord u = true → (lowWord u' = true ∨ capWord u' = true))
    (hB : digitWord u = true → digWord u' = true)
    (h11 : (oneLetter u && oneLetter v) = false)
    (hdd : (digitWord u && digitWord v) = false) :
    adjOK u' (capitalize v) = true := by
  rcases letterWord_or_digitWord v hv with hvl | hvd
  · have hcap := capitalize_letterWord v hvl
    rcases letterWord_or_digitWord u hu with hul | hud
    · rcases hA hul with hlow | hcapu
      · simp [adjOK, hcap, hlow]
      · by_cases h1 : u.length = 1
        · have hone : oneLetter u = true := by simp [oneLetter, hul, h1]
          have hov : oneLetter v = false := by
            cases hov : oneLetter v with
            | false => rfl
            | true =>
              rw [hone, hov] at h11
              exact absurd h11 (by simp)
          have hvne : v.length ≠ 1 := by
            intro hv1
            rw [show oneLetter v = true by simp [oneLetter, hvl, hv1]] at hov
            exact absurd hov (by simp)
          have hvpos : v.length ≠ 0 := by
            simpa [List.length_eq_zero] using simpleWord_ne_nil v hv
          have hvlen : 2 ≤ (capitalize v).length := by
            rw [capitalize_length]
            omega
          have hvlenb : decide ((capitalize v).length ≥ 2) = true := decide_eq_true hvlen
          simp [adjOK, hcap, hcapu, hvlenb]
        · have hne : u'.length ≠ 1 := by
            rw [hlen]
            exact h1
          simp [adjOK, hcap, hcapu, bne_iff_ne, hne]
    · simp [adjOK, hcap, hB hud]
  · have hdig := capitalize_digitWord v hvd
    rcases letterWord_or_digitWord u hu with hul | hud
    · rcases hA hul with hlow | hcapu
      · simp [adjOK, hdig, hlow]
      · simp [adjOK, hdig, hcapu]
    · rw [hud, hvd] at hdd
      exact absurd hdd (by simp)

theorem chainFrom_rendered : ∀ (rest : List (List Char)) (u u' : List Char),
    simpleWord u = true → wellFormedWords (u :: rest) = true →
    u'.length = u.length →
    (letterWord u = true → (lowWord u' = true ∨ capWord u' = true)) →
    (digitWord u = true → digWord u' = true) →
    chainFrom u' (rest.map capitalize) = true := by
  intro rest
  induction rest with
  | nil =>
    intro u u' _ _ _ _ _
    rfl
  | cons v rest2 ih =>
    intro u u' hu hwf hlen hA hB
    obtain ⟨_, h11, hdd, hwf2⟩ := wellFormedWords_head u v rest2 hwf
    have hv : simpleWord v = true := wellFormedWords_simple (v :: rest2) hwf2 v (by simp)
    show chainFrom u' (capitalize v :: rest2.map capitalize) = true
    simp only [chainFrom, Bool.and_eq_true]
    refine ⟨⟨?_, ?_⟩, ?_⟩
    · exact casedShape_of_capitalize v hv
    · exact adjOK_rendered u u' v hu hv hlen hA hB h11 hdd
    · exact ih v (capitalize v) hv hwf2 (capitalize_length v)
        (fun hl => Or.inr (capitalize_letterWord v hl))
        (fun hd => capitalize_digitWord v hd)

theorem chainOK_pascal (ws : List (List Char)) (h : wellFormedWords ws = true) :
    chainOKlist (ws.map capitalize) = true := by
  cases ws with
  | nil => rfl
  | cons u rest =>
    have hu : simpleWord u = true := wellFormedWords_simple _ h u (by simp)
    show chainOKlist (capitalize u :: rest.map capitalize) = true
    simp only [chainOKlist, Bool.and_eq_true]
    exact ⟨casedShape_of_capitalize u hu,
      chainFrom_rendered rest u (capitalize u) hu h (capitalize_length u)
        (fun hl => Or.inr (capitalize_letterWord u hl))
        (fun hd => capitalize_digitWord u hd)⟩

theorem chainOK_camel (u : List Char) (rest : List (List Char))
    (h : wellFormedWords (u :: rest) = true) :
    chainOKlist (u.map Char.toLower :: rest.map capitalize) = true := by
  have hu : simpleWord u = true := wellFormedWords_simple _ h u (by simp)
  simp only [chainOKlist, Bool.and_eq_true]
  exact ⟨casedShape_of_mapToLower u hu,
    chainFrom_rendered rest u (u.map Char.toLower) hu h (mapToLower_length u)
      (fun hl => Or.inl (mapToLower_letterWord u hl))
      (fun hd => mapToLower_digitWord u hd)⟩

/-! ### Alternating rendering distributes over the space join -/

theorem alternatingChars_nonalpha (n : Nat) (c : Char) (l : List Char)
    (h : c.isAlpha = false) :
    alternatingChars n (c :: l) = c :: alternatingChars n l := by
  simp [alternatingChars, h]

theorem spaceChar_not_alpha : spaceChar.isAlpha = false := by decide

theorem alternatingChars_join :
    ∀ (ws : List (List Char)) (n : Nat),
      alternatingChars n (joinWith [spaceChar] ws) = joinWith [spaceChar] (altWords n ws) := by
  intro ws
  induction ws with
  | nil =>
    intro n
    rfl
  | cons w rest ih =>
    intro n
    cases rest with
    | nil =>
      rw [joinWith_single]
      show _ = joinWith [spaceChar] [alternatingChars n w]
      rw [joinWith_single]
    | cons w2 rest2 =>
      rw [joinWith_cons, List.append_assoc, alternatingChars_append,
        List.singleton_append, alternatingChars_nonalpha _ spaceChar _ spaceChar_not_alpha,
        ih (n + countAlpha w)]
      show _ = joinWith [spaceChar]
        (alternatingChars n w :: altWords (n + countAlpha w) (w2 :: rest2))
      rw [show altWords (n + countAlpha w) (w2 :: rest2)
          = alternatingChars (n + countAlpha w) w2
            :: altWords (n + countAlpha w + countAlpha w2) rest2 from rfl,
        joinWith_cons, List.append_assoc, List.singleton_append]

theorem alternatingChars_length : ∀ (l : List Char) (n : Nat),
    (alternatingChars n l).length = l.length := by
  intro l
  induction l with
  | nil =>
    intro n
    rfl
  | cons c l ih =>
    intro n
    cases h : c.isAlpha with
    | true => simp [alternatingChars, h, ih]
    | false => simp [alternatingChars, h, ih]

theorem alternatingChars_chars : ∀ (l : List Char) (n : Nat),
    (∀ x ∈ l, (x.isAlpha || x.isDigit) = true) →
    ∀ x ∈ alternatingChars n l, (x.isAlpha || x.isDigit) = true := by
  intro l
  induction l with
  | nil =>
    intro n _ x hx
    simp [alternatingChars] at hx
  | cons c l ih =>
    intro n h x hx
    have hc := h c (by simp)
    have hl : ∀ y ∈ l, (y.isAlpha || y.isDigit) = true := fun y hy => h y (by simp [hy])
    have h128 := simple_lt128 c hc
    cases ha : c.isAlpha with
    | true =>
      rw [show alternatingChars n (c :: l)
          = (if n % 2 = 0 then c.toLower else c.toUpper) :: alternatingChars (n + 1) l by
        simp [alternatingChars, ha]] at hx
      rcases List.mem_cons.mp hx with h2 | h2
      · by_cases hn : n % 2 = 0
        · rw [h2, if_pos hn, isAlpha_toLower c h128, isDigit_toLower c h128]
          exact hc
        · rw [h2, if_neg hn, isAlpha_toUpper c h128, isDigit_toUpper c h128]
          exact hc
      · exact ih (n + 1) hl x h2
    | false =>
      rw [alternatingChars_nonalpha n c l ha] at hx
      rcases List.mem_cons.mp hx with h2 | h2
      · rw [h2]
        exact hc
      · exact ih n hl x h2

theorem altWords_good : ∀ (ws : List (List Char)), (∀ w ∈ ws, simpleWord w = true) →
    ∀ (n : Nat), ∀ u ∈ altWords n ws, u ≠ [] ∧ ∀ x ∈ u, (x.isAlpha || x.isDigit) = true := by
  intro ws
  induction ws with
  | nil =>
    intro _ n u hu
    simp [altWords] at hu
  | cons w rest ih =>
    intro hws n u hu
    rcases List.mem_cons.mp hu with h2 | h2
    · have hw := hws w (by simp)
      constructor
      · rw [h2]
        intro he
        have := alternatingChars_length w n
        rw [he] at this
        exact simpleWord_ne_nil w hw (List.length_eq_zero.mp this.symm)
      · rw [h2]
        exact alternatingChars_chars w n (simpleWord_chars w hw)
    · exact ih (fun v hv => hws v (by simp [hv])) (n + countAlpha w) u h2

theorem join_lt128 : ∀ (ws : List (List Char)), (∀ w ∈ ws, simpleWord w = true) →
    ∀ x ∈ joinWith [spaceChar] ws, x.toNat < 128 := by
  intro ws
  induction ws with
  | nil =>
    intro _ x hx
    simp [joinWith_nil] at hx
  | cons w rest ih =>
    intro hws x hx
    have hw : ∀ x ∈ w, x.toNat < 128 := fun y hy =>
      simple_lt128 y (simpleWord_chars w (hws w (by simp)) y hy)
    cases rest with
    | nil =>
      rw [joinWith_single] at hx
      exact hw x hx
    | cons w2 rest2 =>
      rw [joinWith_cons, List.append_assoc, List.singleton_append] at hx
      rcases List.mem_append.mp hx with h2 | h2
      · exact hw x h2
      · rcases List.mem_cons.mp h2 with h3 | h3
        · rw [h3]
          decide
        · exact ih (fun v hv => hws v (by simp [hv])) x h3

theorem alternatingChars_idem : ∀ (l : List Char), (∀ x ∈ l, x.toNat < 128) →
    ∀ (n : Nat), alternatingChars n (alternatingChars n l) = alternatingChars n l := by
  intro l
  induction l with
  | nil =>
    intro _ n
    rfl
  | cons c l ih =>
    intro hl n
    have hc : c.toNat < 128 := hl c (by simp)
    have hl2 : ∀ x ∈ l, x.toNat < 128 := fun x hx => hl x (by simp [hx])
    cases ha : c.isAlpha with
    | false =>
      rw [alternatingChars_nonalpha n c l ha, alternatingChars_nonalpha n c _ ha, ih hl2 n]
    | true =>
      by_cases hn : n % 2 = 0
      · have hb : c.toLower.isAlpha = true := by
          rw [isAlpha_toLower c hc]
          exact ha
        rw [show alternatingChars n (c :: l) = c.toLower :: alternatingChars (n + 1) l by
            simp [alternatingChars, ha, hn],
          show alternatingChars n (c.toLower :: alternatingChars (n + 1) l)
            = c.toLower.toLower :: alternatingChars (n + 1) (alternatingChars (n + 1) l) by
            simp [alternatingChars, hb, hn],
          toLower_toLower c hc, ih hl2 (n + 1)]
      · have hb : c.toUpper.isAlpha = true := by
          rw [isAlpha_toUpper c hc]
          exact ha
        rw [show alternatingChars n (c :: l) = c.toUpper :: alternatingChars (n + 1) l by
            simp [alternatingChars, ha, hn],
          show alternatingChars n (c.toUpper :: alternatingChars (n + 1) l)
            = c.toUpper.toUpper :: alternatingChars (n + 1) (alternatingChars (n + 1) l) by
            simp [alternatingChars, hb, hn],
          toUpper_toUpper c hc, ih hl2 (n + 1)]

/-! ### Claim C7: identity conversion -/

theorem roundtrip_chars (c : Case) (ws : List (List Char)) (h : wellFormedWords ws = true) :
    intoCaseChars (segment (fromCaseRuleset c) (intoCaseChars ws c)) c
      = intoCaseChars ws c := by
  have hws := wellFormedWords_simple ws h
  cases c with
  | Lower =>
    have e1 := caseWords_eq_map Case.Lower (fun w => w.map Char.toLower) (fun i w => rfl)
    obtain ⟨hseg, hid⟩ := roundtrip_mapcore (fun w => w.map Char.toLower) spaceChar
      (by decide) (fun w hw => map_ne_nil_of_ne_nil Char.toLower w hw)
      map_toLower_chars map_toLower_idem ws hws
    simp only [intoCaseChars, delim, fromCaseRuleset]
    rw [e1 ws 0, hseg, e1 (ws.map (fun w => w.map Char.toLower)) 0, hid]
  | Upper =>
    have e1 := caseWords_eq_map Case.Upper (fun w => w.map Char.toUpper) (fun i w => rfl)
    obtain ⟨hseg, hid⟩ := roundtrip_mapcore (fun w => w.map Char.toUpper) spaceChar
      (by decide) (fun w hw => map_ne_nil_of_ne_nil Char.toUpper w hw)
      map_toUpper_chars map_toUpper_idem ws hws
    simp only [intoCaseChars, delim, fromCaseRuleset]
    rw [e1 ws 0, hseg, e1 (ws.map (fun w => w.map Char.toUpper)) 0, hid]
  | Title =>
    have e1 := caseWords_eq_map Case.Title capitalize (fun i w => rfl)
    obtain ⟨hseg, hid⟩ := roundtrip_mapcore capitalize spaceChar (by decide)
      capitalize_ne_nil capitalize_chars capitalize_idem ws hws
    simp only [intoCaseChars, delim, fromCaseRuleset]
    rw [e1 ws 0, hseg, e1 (ws.map capitalize) 0, hid]
  | Toggle =>
    have e1 := caseWords_eq_map Case.Toggle toggleWord (fun i w => rfl)
    obtain ⟨hseg, hid⟩ := roundtrip_mapcore toggleWord spaceChar (by decide)
      toggleWord_ne_nil toggleWord_chars toggleWord_idem ws hws
    simp only [intoCaseChars, delim, fromCaseRuleset]
    rw [e1 ws 0, hseg, e1 (ws.map toggleWord) 0, hid]
  | Snake =>
    have e1 := caseWords_eq_map Case.Snake (fun w => w.map Char.toLower) (fun i w => rfl)
    obtain ⟨hseg, hid⟩ := roundtrip_mapcore (fun w => w.map Char.toLower) '_'
      (by decide) (fun w hw => map_ne_nil_of_ne_nil Char.toLower w hw)
      map_toLower_chars map_toLower_idem ws hws
    simp only [intoCaseChars, delim, fromCaseRuleset]
    rw [e1 ws 0, hseg, e1 (ws.map (fun w => w.map Char.toLower)) 0, hid]
  | ScreamingSnake =>
    have e1 := caseWords_eq_map Case.ScreamingSnake (fun w => w.map Char.toUpper)
      (fun i w => rfl)
    obtain ⟨hseg, hid⟩ := roundtrip_mapcore (fun w => w.map Char.toUpper) '_'
      (by decide) (fun w hw => map_ne_nil_of_ne_nil Char.toUpper w hw)
      map_toUpper_chars map_toUpper_idem ws hws
    simp only [intoCaseChars, delim, fromCaseRuleset]
    rw [e1 ws 0, hseg, e1 (ws.map (fun w => w.map Char.toUpper)) 0, hid]
  | Kebab =>
    have e1 := caseWords_eq_map Case.Kebab (fun w => w.map Char.toLower) (fun i w => rfl)
    obtain ⟨hseg, hid⟩ := roundtrip_mapcore (fun w => w.map Char.toLower) '-'
      (by decide) (fun w hw => map_ne_nil_of_ne_nil Char.toLower w hw)
      map_toLower_chars map_toLower_idem ws hws
    simp only [intoCaseChars, delim, fromCaseRuleset]
    rw [e1 ws 0, hseg, e1 (ws.map (fun w => w.map Char.toLower)) 0, hid]
  | Cobol =>
    have e1 := caseWords_eq_map Case.Cobol (fun w => w.map Char.toUpper) (fun i w => rfl)
    obtain ⟨hseg, hid⟩ := roundtrip_mapcore (fun w => w.map Char.toUpper) '-'
      (by decide) (fun w hw => map_ne_nil_of_ne_nil Char.toUpper w hw)
      map_toUpper_chars map_toUpper_idem ws hws
    simp only [intoCaseChars, delim, fromCaseRuleset]
    rw [e1 ws 0, hseg, e1 (ws.map (fun w => w.map Char.toUpper)) 0, hid]
  | Train =>
    have e1 := caseWords_eq_map Case.Train capitalize (fun i w => rfl)
    obtain ⟨hseg, hid⟩ := roundtrip_mapcore capitalize '-' (by decide)
      capitalize_ne_nil capitalize_chars capitalize_idem ws hws
    simp only [intoCaseChars, delim, fromCaseRuleset]
    rw [e1 ws 0, hseg, e1 (ws.map capitalize) 0, hid]
  | Pascal =>
    have e1 := caseWords_eq_map Case.Pascal capitalize (fun i w => rfl)
    simp only [intoCaseChars, delim, fromCaseRuleset]
    rw [e1 ws 0, segment_camel_chain (ws.map capitalize) (chainOK_pascal ws h),
      e1 (ws.map capitalize) 0, map_f_idem capitalize capitalize_idem ws hws]
  | UpperCamel =>
    have e1 := caseWords_eq_map Case.UpperCamel capitalize (fun i w => rfl)
    simp only [intoCaseChars, delim, fromCaseRuleset]
    rw [e1 ws 0, segment_camel_chain (ws.map capitalize) (chainOK_pascal ws h),
      e1 (ws.map capitalize) 0, map_f_idem capitalize capitalize_idem ws hws]
  | Camel =>
    cases ws with
    | nil => rfl
    | cons u rest =>
      have hcw : caseWords Case.Camel 0 (u :: rest)
          = u.map Char.toLower :: rest.map capitalize := by
        show caseWord Case.Camel 0 u :: caseWords Case.Camel 1 rest = _
        rw [show caseWord Case.Camel 0 u = u.map Char.toLower by simp [caseWord],
          caseWords_camel_succ rest 0]
      have hcw2 : caseWords Case.Camel 0 (u.map Char.toLower :: rest.map capitalize)
          = (u.map Char.toLower).map Char.toLower
            :: (rest.map capitalize).map capitalize := by
        show caseWord Case.Camel 0 (u.map Char.toLower)
            :: caseWords Case.Camel 1 (rest.map capitalize) = _
        rw [show caseWord Case.Camel 0 (u.map Char.toLower)
            = (u.map Char.toLower).map Char.toLower by simp [caseWord],
          caseWords_camel_succ (rest.map capitalize) 0]
      simp only [intoCaseChars, delim, fromCaseRuleset]
      rw [hcw, segment_camel_chain (u.map Char.toLower :: rest.map capitalize)
          (chainOK_camel u rest h), hcw2,
        map_toLower_idem u (simpleWord_chars u (hws u (by simp))),
        map_f_idem capitalize capitalize_idem rest (fun w hw => hws w (by simp [hw]))]
  | Alternating =>
    simp only [intoCaseChars, fromCaseRuleset]
    rw [alternatingChars_join ws 0,
      segment_join_simple spaceChar (by decide) (altWords 0 ws) (altWords_good ws hws 0),
      ← alternatingChars_join ws 0,
      alternatingChars_idem (joinWith [spaceChar] ws) (join_lt128 ws hws) 0]

/-- C7 counterexample: the text `AB` is validly rendered in Pascal (it is the
Pascal rendering of the word sequence `a`, `b`), yet identity conversion
re-parses it as the single word `AB` (no lower-case letter follows the
upper-case run) and renders `Ab`, so `from_case(C).to_case(C)` is not the
identity on every text validly rendered in C. -/
theorem c7_counterexample :
    Words.intoCase [['a'], ['b']] Case.Pascal = "AB"
    ∧ (strFromCase "AB" Case.Pascal).toCase Case.Pascal = "Ab"
    ∧ ("Ab" : String) ≠ "AB" :=
  ⟨by decide, by decide, by decide⟩

/-- C7 amended: identity conversion is the identity on every text rendered in
convention C from a word-boundary-unambiguous word sequence: every word all
letters or all digits, no two adjacent one-letter words, and no two adjacent
all-digit words.  For such texts `from_case(C).to_case(C)` returns the text
unchanged, for every convention C. -/
theorem c7_identity_on_wellformed (c : Case) (ws : List (List Char))
    (h : wellFormedWords ws = true) :
    (strFromCase (Words.intoCase ws c) c).toCase c = Words.intoCase ws c :=
  congrArg String.mk (roundtrip_chars c ws h)

/-- Witness for C7: the Pascal rendering of the words my/var/22 survives
identity conversion. -/
theorem c7_identity_on_wellformed_witness :
    wellFormedWords [['m', 'y'], ['v', 'a', 'r'], ['2', '2']] = true
    ∧ (strFromCase (Words.intoCase [['m', 'y'], ['v', 'a', 'r'], ['2', '2']] Case.Pascal)
        Case.Pascal).toCase Case.Pascal
      = Words.intoCase [['m', 'y'], ['v', 'a', 'r'], ['2', '2']] Case.Pascal :=
  ⟨by decide, c7_identity_on_wellformed Case.Pascal
    [['m', 'y'], ['v', 'a', 'r'], ['2', '2']] (by decide)⟩

end ConvertCase
